import Mathlib

/-!
Shallow embedding of the bitcask key/value store's core data structures
(record codec, record-location codec, skip-list index, iterator protocol,
memory-mapped IO back-end) and proofs of the specification claims about
them.  Byte strings are modelled as `List Nat` (each element a byte value),
machine integers as `Nat` with explicit `% 2 ^ w` where the source casts.
-/

namespace Bitcask

/-- Keys and raw byte buffers: `Vec<u8>` from the source, as a list of byte
values. -/
abbrev Key := List Nat

/-- Comparison of two byte values, mirroring `u8: Ord`. -/
def byteCmp (a b : Nat) : Ordering :=
  if a < b then .lt else if b < a then .gt else .eq

/-- Lexicographic comparison of byte strings, mirroring `Vec<u8>: Ord`
(elementwise comparison, a strict prefix is smaller). -/
def keyCmp : Key → Key → Ordering
  | [], [] => .eq
  | [], _ :: _ => .lt
  | _ :: _, [] => .gt
  | a :: as, b :: bs =>
    match byteCmp a b with
    | .eq => keyCmp as bs
    | o => o

/-- Strict key order: `a` is lexicographically below `b`. -/
def keyLt (a b : Key) : Prop := keyCmp a b = .lt

instance (a b : Key) : Decidable (keyLt a b) :=
  inferInstanceAs (Decidable (_ = _))

theorem byteCmp_eq_iff {a b : Nat} : byteCmp a b = .eq ↔ a = b := by
  unfold byteCmp
  split <;> rename_i h
  · simp; omega
  · split <;> rename_i h2
    · simp; omega
    · simp; omega

theorem byteCmp_lt_iff {a b : Nat} : byteCmp a b = .lt ↔ a < b := by
  unfold byteCmp
  split <;> rename_i h
  · simpa using h
  · split <;> simp <;> omega

theorem byteCmp_swap (a b : Nat) : byteCmp b a = (byteCmp a b).swap := by
  rcases Nat.lt_trichotomy a b with h | h | h
  · simp [byteCmp, h, Nat.lt_asymm h, Ordering.swap]
  · subst h; simp [byteCmp, Ordering.swap]
  · simp [byteCmp, h, Nat.lt_asymm h, Ordering.swap]

theorem keyCmp_eq_iff : ∀ {a b : Key}, keyCmp a b = .eq ↔ a = b
  | [], [] => by simp [keyCmp]
  | [], _ :: _ => by simp [keyCmp]
  | _ :: _, [] => by simp [keyCmp]
  | a :: as, b :: bs => by
    rw [keyCmp]
    rcases h : byteCmp a b with _ | _ | _
    · simp only []
      constructor
      · intro hc; exact absurd hc (by simp)
      · intro hc
        have : a = b := by simpa using congrArg (fun l => List.head? l) hc
        rw [byteCmp_eq_iff.2 this] at h; cases h
    · simp only []
      rw [keyCmp_eq_iff (a := as) (b := bs)]
      have hab : a = b := byteCmp_eq_iff.1 h
      subst hab
      constructor
      · intro hc; rw [hc]
      · intro hc; simpa using hc
    · simp only []
      constructor
      · intro hc; exact absurd hc (by simp)
      · intro hc
        have : a = b := by simpa using congrArg (fun l => List.head? l) hc
        rw [byteCmp_eq_iff.2 this] at h; cases h

theorem keyCmp_swap : ∀ (a b : Key), keyCmp b a = (keyCmp a b).swap
  | [], [] => rfl
  | [], _ :: _ => rfl
  | _ :: _, [] => rfl
  | a :: as, b :: bs => by
    rw [keyCmp, keyCmp, byteCmp_swap]
    rcases byteCmp a b with _ | _ | _
    · rfl
    · exact keyCmp_swap as bs
    · rfl

theorem keyCmp_self (a : Key) : keyCmp a a = .eq := keyCmp_eq_iff.2 rfl

theorem keyLt_trans : ∀ {a b c : Key}, keyLt a b → keyLt b c → keyLt a c
  | [], [], _, hab, _ => by cases hab
  | [], _ :: _, [], _, hbc => by cases hbc
  | [], _ :: _, _ :: _, _, _ => rfl
  | _ :: _, [], _, hab, _ => by cases hab
  | _ :: _, _ :: _, [], _, hbc => by cases hbc
  | a :: as, b :: bs, c :: cs, hab, hbc => by
    rw [keyLt, keyCmp] at hab hbc ⊢
    rcases h1 : byteCmp a b with _ | _ | _ <;> rw [h1] at hab
    · rcases h2 : byteCmp b c with _ | _ | _ <;> rw [h2] at hbc
      · rw [show byteCmp a c = .lt from
          byteCmp_lt_iff.2 (lt_trans (byteCmp_lt_iff.1 h1) (byteCmp_lt_iff.1 h2))]
      · have hb : b = c := byteCmp_eq_iff.1 h2
        rw [show byteCmp a c = .lt from byteCmp_lt_iff.2 (hb ▸ byteCmp_lt_iff.1 h1)]
      · cases hbc
    · have ha : a = b := byteCmp_eq_iff.1 h1
      rcases h2 : byteCmp b c with _ | _ | _ <;> rw [h2] at hbc
      · rw [show byteCmp a c = .lt from byteCmp_lt_iff.2 (ha ▸ byteCmp_lt_iff.1 h2)]
      · have hb : b = c := byteCmp_eq_iff.1 h2
        rw [show byteCmp a c = .eq from byteCmp_eq_iff.2 (ha.trans hb)]
        exact keyLt_trans hab hbc
      · cases hbc
    · cases hab

theorem keyLt_irrefl (a : Key) : ¬ keyLt a a := by
  rw [keyLt, keyCmp_self]; simp

theorem keyLt_ne {a b : Key} (h : keyLt a b) : a ≠ b := by
  intro he; subst he; exact keyLt_irrefl a h

/-- Modelled from the spec: the error taxonomy of section 7 (the source's
`error.rs` is not among the staged files; only the variants the claims
touch plus their neighbours are listed). -/
inductive Errors where
  | KeyIsEmpty
  | KeyNotFound
  | IndexUpdateFailed
  | FailedToOpenDataFile
  | FailedReadFromDataFile
  | FailedWriteToDataFile
  | FailedSyncDataFile
  | ReadDataFileEOF
  | DataFileNotFound
  | CorruptRecord
  | DatabaseIsUsing
  deriving DecidableEq

/-- State of a `crossbeam_skiplist::SkipMap<Vec<u8>, T>` (external crate):
an ordered map, modelled as an association list sorted strictly by
`keyCmp` on the keys. -/
abbrev SkipMap (T : Type) := List (Key × T)

/-- Well-formedness of the ordered-map state: keys strictly ascending. -/
def SkipMap.wf {T : Type} (m : SkipMap T) : Prop :=
  List.Pairwise (fun e f => keyLt e.1 f.1) m

instance {T : Type} (m : SkipMap T) : Decidable (SkipMap.wf m) :=
  inferInstanceAs (Decidable (List.Pairwise _ _))

/-- Lookup of `SkipMap::get`: the value stored under an equal key. -/
def SkipMap.get {T : Type} : SkipMap T → Key → Option T
  | [], _ => none
  | (k', v) :: rest, k => if k' = k then some v else SkipMap.get rest k

/-- Insertion of `SkipMap::insert`: replaces the entry with an equal key,
otherwise inserts at the ordered position. -/
def SkipMap.insert {T : Type} : SkipMap T → Key → T → SkipMap T
  | [], k, v => [(k, v)]
  | (k', v') :: rest, k, v =>
    match keyCmp k k' with
    | .lt => (k, v) :: (k', v') :: rest
    | .eq => (k, v) :: rest
    | .gt => (k', v') :: SkipMap.insert rest k v

/-- Removal of `SkipMap::remove`: drops the entry with an equal key and
returns its value alongside the remaining map. -/
def SkipMap.removeGo {T : Type} : SkipMap T → Key → Option T × SkipMap T
  | [], _ => (none, [])
  | (k', v') :: rest, k =>
    if k' = k then (some v', rest)
    else
      let r := SkipMap.removeGo rest k
      (r.1, (k', v') :: r.2)

/-- `SkipList::put` (src/index/skiplist.rs): reads the previously stored
value with `get`, then `insert`s the new position; returns the displaced
value and the updated map state. -/
def SkipList.put {T : Type} (m : SkipMap T) (k : Key) (v : T) : Option T × SkipMap T :=
  (SkipMap.get m k, SkipMap.insert m k v)

/-- `SkipList::get` (src/index/skiplist.rs). -/
def SkipList.get {T : Type} (m : SkipMap T) (k : Key) : Option T :=
  SkipMap.get m k

/-- `SkipList::delete` (src/index/skiplist.rs): `SkipMap::remove`, returning
the removed value and the remaining map state. -/
def SkipList.delete {T : Type} (m : SkipMap T) (k : Key) : Option T × SkipMap T :=
  SkipMap.removeGo m k

/-- `SkipList::list_keys` (src/index/skiplist.rs): copies every key, in the
map's ascending traversal order, and always returns `Ok`. -/
def SkipList.list_keys {T : Type} (m : SkipMap T) : Except Errors (List Key) :=
  .ok (m.map Prod.fst)

theorem SkipMap.get_insert_self {T : Type} (m : SkipMap T) (k : Key) (v : T) :
    SkipMap.get (SkipMap.insert m k v) k = some v := by
  induction m with
  | nil => simp [SkipMap.insert, SkipMap.get]
  | cons e rest ih =>
    obtain ⟨k', v'⟩ := e
    rw [SkipMap.insert]
    rcases h : keyCmp k k' with _ | _ | _
    · simp [SkipMap.get]
    · simp [SkipMap.get]
    · have hne : k' ≠ k := by
        intro he; subst he; rw [keyCmp_self] at h; cases h
      simpa [SkipMap.get, hne] using ih

theorem SkipMap.get_insert_ne {T : Type} (m : SkipMap T) {k k' : Key} (v : T)
    (hne : k' ≠ k) : SkipMap.get (SkipMap.insert m k v) k' = SkipMap.get m k' := by
  have hkk : ¬ k = k' := fun h => hne h.symm
  induction m with
  | nil => simp [SkipMap.insert, SkipMap.get, hkk]
  | cons e rest ih =>
    obtain ⟨k'', v''⟩ := e
    rw [SkipMap.insert]
    rcases h : keyCmp k k'' with _ | _ | _
    · simp [SkipMap.get, hkk]
    · have : k = k'' := keyCmp_eq_iff.1 h
      subst this
      simp [SkipMap.get, hkk]
    · by_cases h2 : k'' = k'
      · simp [SkipMap.get, h2]
      · simp [SkipMap.get, h2, ih]

theorem SkipMap.removeGo_fst {T : Type} (m : SkipMap T) (k : Key) :
    (SkipMap.removeGo m k).1 = SkipMap.get m k := by
  induction m with
  | nil => rfl
  | cons e rest ih =>
    obtain ⟨k', v'⟩ := e
    rw [SkipMap.removeGo, SkipMap.get]
    by_cases h : k' = k <;> simp [h, ih]

theorem SkipMap.get_eq_none_of_forall_ne {T : Type} {m : SkipMap T} {k : Key}
    (h : ∀ e ∈ m, e.1 ≠ k) : SkipMap.get m k = none := by
  induction m with
  | nil => rfl
  | cons e rest ih =>
    rw [SkipMap.get]
    rw [if_neg (h e (by simp))]
    exact ih fun e he => h e (by simp [he])

theorem SkipMap.get_remove_self {T : Type} {m : SkipMap T} (k : Key)
    (hwf : SkipMap.wf m) : SkipMap.get (SkipMap.removeGo m k).2 k = none := by
  induction m with
  | nil => rfl
  | cons e rest ih =>
    obtain ⟨k', v'⟩ := e
    rw [SkipMap.removeGo]
    by_cases h : k' = k
    · subst h
      simp only [if_pos rfl]
      exact SkipMap.get_eq_none_of_forall_ne fun e he =>
        (keyLt_ne ((List.pairwise_cons.1 hwf).1 e he)).symm
    · simpa [SkipMap.get, h] using ih (List.pairwise_cons.1 hwf).2

theorem SkipMap.get_remove_ne {T : Type} (m : SkipMap T) {k k' : Key}
    (hne : k' ≠ k) : SkipMap.get (SkipMap.removeGo m k).2 k' = SkipMap.get m k' := by
  induction m with
  | nil => rfl
  | cons e rest ih =>
    obtain ⟨k'', v''⟩ := e
    rw [SkipMap.removeGo, SkipMap.get]
    by_cases h : k'' = k
    · subst h
      rw [if_pos rfl, if_neg fun he => hne (he.symm)]
    · by_cases h2 : k'' = k' <;> simp [SkipMap.get, h, h2, ih, hne]

theorem SkipMap.mem_insert {T : Type} {m : SkipMap T} {k : Key} {v : T} {e : Key × T}
    (h : e ∈ SkipMap.insert m k v) : e = (k, v) ∨ e ∈ m := by
  induction m with
  | nil => simpa [SkipMap.insert] using h
  | cons f rest ih =>
    obtain ⟨k', v'⟩ := f
    rw [SkipMap.insert] at h
    rcases hc : keyCmp k k' with _ | _ | _ <;> rw [hc] at h <;>
      simp only [List.mem_cons] at h ⊢
    · tauto
    · tauto
    · rcases h with h | h
      · tauto
      · rcases ih h with h2 | h2 <;> tauto

theorem SkipMap.mem_remove {T : Type} {m : SkipMap T} {k : Key} {e : Key × T}
    (h : e ∈ (SkipMap.removeGo m k).2) : e ∈ m := by
  induction m with
  | nil => simp [SkipMap.removeGo] at h
  | cons f rest ih =>
    obtain ⟨k', v'⟩ := f
    rw [SkipMap.removeGo] at h
    by_cases hk : k' = k
    · rw [if_pos hk] at h; exact List.mem_cons_of_mem _ h
    · rw [if_neg hk] at h
      simp only [List.mem_cons] at h ⊢
      rcases h with h | h
      · tauto
      · exact Or.inr (ih h)

theorem SkipMap.wf_insert {T : Type} {m : SkipMap T} (k : Key) (v : T)
    (hwf : SkipMap.wf m) : SkipMap.wf (SkipMap.insert m k v) := by
  induction m with
  | nil => simp [SkipMap.insert, SkipMap.wf]
  | cons e rest ih =>
    obtain ⟨k', v'⟩ := e
    obtain ⟨hhead, htail⟩ := List.pairwise_cons.1 hwf
    rw [SkipMap.insert]
    rcases hc : keyCmp k k' with _ | _ | _
    · refine List.pairwise_cons.2 ⟨?_, hwf⟩
      intro e he
      rw [List.mem_cons] at he
      rcases he with he | he
      · subst he; exact hc
      · exact keyLt_trans hc (hhead e he)
    · have : k = k' := keyCmp_eq_iff.1 hc
      subst this
      exact List.pairwise_cons.2 ⟨hhead, htail⟩
    · refine List.pairwise_cons.2 ⟨?_, ih htail⟩
      intro e he
      rcases SkipMap.mem_insert he with h2 | h2
      · subst h2
        rw [keyLt, keyCmp_swap, hc]
        rfl
      · exact hhead e h2

theorem SkipMap.wf_remove {T : Type} {m : SkipMap T} (k : Key)
    (hwf : SkipMap.wf m) : SkipMap.wf (SkipMap.removeGo m k).2 := by
  induction m with
  | nil => simp [SkipMap.removeGo, SkipMap.wf]
  | cons e rest ih =>
    obtain ⟨k', v'⟩ := e
    obtain ⟨hhead, htail⟩ := List.pairwise_cons.1 hwf
    rw [SkipMap.removeGo]
    by_cases hk : k' = k
    · rw [if_pos hk]; exact htail
    · rw [if_neg hk]
      refine List.pairwise_cons.2 ⟨?_, ih htail⟩
      intro e he
      exact hhead e (SkipMap.mem_remove he)

theorem SkipMap.get_eq_some_iff_mem {T : Type} {m : SkipMap T} {k : Key} {v : T}
    (hwf : SkipMap.wf m) : SkipMap.get m k = some v ↔ (k, v) ∈ m := by
  induction m with
  | nil => simp [SkipMap.get]
  | cons e rest ih =>
    obtain ⟨k', v'⟩ := e
    obtain ⟨hhead, htail⟩ := List.pairwise_cons.1 hwf
    rw [SkipMap.get]
    by_cases h : k' = k
    · subst h
      rw [if_pos rfl, List.mem_cons]
      constructor
      · intro hv
        left
        have : v' = v := by simpa using hv
        rw [this]
      · intro hv
        rcases hv with hv | hv
        · have : v = v' := congrArg Prod.snd hv
          rw [this]
        · exact absurd rfl (keyLt_ne (hhead (k', v) hv))
    · rw [if_neg h, ih htail, List.mem_cons]
      constructor
      · intro hv; exact Or.inr hv
      · intro hv
        rcases hv with hv | hv
        · exact absurd (congrArg Prod.fst hv).symm h
        · exact hv

/-- One mutating index operation, for stating history-based properties of
`put`/`delete` sequences. -/
inductive MutOp (T : Type) where
  | put (k : Key) (v : T)
  | del (k : Key)

/-- Key a mutating operation addresses. -/
def MutOp.key {T : Type} : MutOp T → Key
  | .put k _ => k
  | .del k => k

/-- Effect of a mutating operation on its key: the installed value for a
put, nothing for a delete. -/
def MutOp.effect {T : Type} : MutOp T → Option T
  | .put _ v => some v
  | .del _ => none

/-- Apply one mutating operation to the index state. -/
def applyMutOp {T : Type} (m : SkipMap T) : MutOp T → SkipMap T
  | .put k v => (SkipList.put m k v).2
  | .del k => (SkipList.delete m k).2

/-- Apply a sequence of mutating operations, oldest first. -/
def applyMutOps {T : Type} (m : SkipMap T) (ops : List (MutOp T)) : SkipMap T :=
  ops.foldl applyMutOp m

/-- The most recent operation of a history that addresses key `k`, as its
effect: `some (some v)` when it is `put k v`, `some none` when it is
`del k`, and `none` when no operation addresses `k`. -/
def histLookup {T : Type} (ops : List (MutOp T)) (k : Key) : Option (Option T) :=
  (ops.reverse.find? fun op => decide (op.key = k)).map MutOp.effect

theorem applyMutOp_wf {T : Type} {m : SkipMap T} (op : MutOp T)
    (hwf : SkipMap.wf m) : SkipMap.wf (applyMutOp m op) := by
  cases op with
  | put k v => exact SkipMap.wf_insert k v hwf
  | del k => exact SkipMap.wf_remove k hwf

theorem get_applyMutOp_key {T : Type} {m : SkipMap T} (op : MutOp T)
    (hwf : SkipMap.wf m) :
    SkipMap.get (applyMutOp m op) op.key = op.effect := by
  cases op with
  | put k v => exact SkipMap.get_insert_self m k v
  | del k => exact SkipMap.get_remove_self k hwf

theorem get_applyMutOp_other {T : Type} {m : SkipMap T} (op : MutOp T) {k : Key}
    (hne : k ≠ op.key) : SkipMap.get (applyMutOp m op) k = SkipMap.get m k := by
  cases op with
  | put k' v => exact SkipMap.get_insert_ne m v hne
  | del k' => exact SkipMap.get_remove_ne m hne

theorem histLookup_append_one {T : Type} (ops : List (MutOp T)) (op : MutOp T) (k : Key) :
    histLookup (op :: ops) k =
      (histLookup ops k).orElse fun _ =>
        if op.key = k then some op.effect else none := by
  rw [histLookup, histLookup, List.reverse_cons, List.find?_append]
  rcases h : List.find? (fun op => decide (op.key = k)) ops.reverse with _ | e
  · by_cases hk : op.key = k <;> simp [List.find?, hk, Option.orElse, h]
  · simp [Option.orElse, h]

/-- The model fact behind C2: a lookup after a history of puts and deletes
is decided by the most recent operation addressing the key, falling back to
the initial state when the history never touches it. -/
theorem get_applyMutOps {T : Type} (ops : List (MutOp T)) (m : SkipMap T) (k : Key)
    (hwf : SkipMap.wf m) :
    SkipMap.get (applyMutOps m ops) k =
      (histLookup ops k).getD (SkipMap.get m k) := by
  induction ops generalizing m with
  | nil => rfl
  | cons op ops ih =>
    rw [applyMutOps, List.foldl_cons]
    rw [show List.foldl applyMutOp (applyMutOp m op) ops = applyMutOps (applyMutOp m op) ops from rfl]
    rw [ih (applyMutOp m op) (applyMutOp_wf op hwf)]
    rw [histLookup_append_one]
    rcases h : histLookup ops k with _ | r
    · simp only [Option.getD, Option.orElse, Option.none_orElse]
      by_cases hk : op.key = k
      · subst hk
        simp [get_applyMutOp_key op hwf]
      · simp [hk, get_applyMutOp_other op fun he => hk he.symm]
    · simp [Option.orElse]

theorem applyMutOps_wf {T : Type} (ops : List (MutOp T)) {m : SkipMap T}
    (hwf : SkipMap.wf m) : SkipMap.wf (applyMutOps m ops) := by
  induction ops generalizing m with
  | nil => exact hwf
  | cons op ops ih => exact ih (applyMutOp_wf op hwf)

/-- Iterator configuration (src/option.rs `IteratorOptions`): a byte-string
filter (field `prefix` in the source) and a direction flag. -/
structure IteratorOptions where
  pfx : List Nat
  reverse : Bool

/-- `starts_with` on byte strings: the second argument is a leading run of
the first. -/
def startsWith : List Nat → List Nat → Bool
  | _, [] => true
  | [], _ :: _ => false
  | a :: as, b :: bs => a == b && startsWith as bs

/-- The filter applied by `SkipListIterator::next`: an empty configured
filter passes everything, otherwise the key must start with it. -/
def keptBy (o : IteratorOptions) (k : Key) : Bool :=
  o.pfx.isEmpty || startsWith k o.pfx

/-- State of a `SkipListIterator` (src/index/skiplist.rs): the snapshot
vector copied out of the map at construction, the cursor, and the options. -/
structure SkipListIterator (T : Type) where
  items : List (Key × T)
  currIndex : Nat
  options : IteratorOptions

/-- `SkipList::iterator` (src/index/skiplist.rs): copies all entries in
ascending traversal order, reverses the copy when `reverse` is set, and
starts the cursor at 0. -/
def SkipList.iterator {T : Type} (m : SkipMap T) (o : IteratorOptions) :
    SkipListIterator T :=
  { items := if o.reverse then m.reverse else m, currIndex := 0, options := o }

/-- The scan loop inside `SkipListIterator::next`: walk the remaining
items, skipping entries the filter rejects; returns the yielded entry and
the cursor position just past it. -/
def nextScan {T : Type} (o : IteratorOptions) :
    List (Key × T) → Nat → Option ((Key × T) × Nat)
  | [], _ => none
  | e :: rest, i => if keptBy o e.1 then some (e, i + 1) else nextScan o rest (i + 1)

/-- `SkipListIterator::next` (src/index/skiplist.rs): `None` once the
cursor passed the end, otherwise the first remaining entry passing the
filter; the cursor advances past the yielded entry (to the end when
nothing further matches). -/
def SkipListIterator.next {T : Type} (it : SkipListIterator T) :
    Option (Key × T) × SkipListIterator T :=
  if it.items.length ≤ it.currIndex then (none, it)
  else
    match nextScan it.options (it.items.drop it.currIndex) it.currIndex with
    | none => (none, { it with currIndex := it.items.length })
    | some (e, j) => (some e, { it with currIndex := j })

/-- `SkipListIterator::rewind` (src/index/skiplist.rs): reset the cursor. -/
def SkipListIterator.rewind {T : Type} (it : SkipListIterator T) : SkipListIterator T :=
  { it with currIndex := 0 }

/-- The comparator `SkipListIterator::seek` passes to `binary_search_by`:
the key order, flipped when iterating in reverse. -/
def seekCmp (o : IteratorOptions) (x k : Key) : Ordering :=
  if o.reverse then (keyCmp x k).swap else keyCmp x k

/-- Core binary-search loop of Rust's `slice::binary_search_by`, on the
list of comparator outcomes; `Ok(mid)` and `Err(left)` both end up as the
new cursor, so only the resulting index is kept. -/
def bsearchGo (os : List Ordering) : Nat → Nat → Nat → Nat
  | 0, l, _ => l
  | fuel + 1, l, r =>
    if l < r then
      match os.getD (l + (r - l) / 2) .eq with
      | .lt => bsearchGo os fuel (l + (r - l) / 2 + 1) r
      | .gt => bsearchGo os fuel l (l + (r - l) / 2)
      | .eq => l + (r - l) / 2
    else l

/-- `slice::binary_search_by` of the Rust standard library, specialised to
the index it reports (`Ok` or `Err` alike, as `seek` uses it). -/
def binarySearchIdx (os : List Ordering) : Nat :=
  bsearchGo os (os.length + 1) 0 os.length

/-- `SkipListIterator::seek` (src/index/skiplist.rs): position the cursor
by binary search with the (possibly reversed) key comparator. -/
def SkipListIterator.seek {T : Type} (it : SkipListIterator T) (k : Key) :
    SkipListIterator T :=
  { it with currIndex := binarySearchIdx (it.items.map fun e => seekCmp it.options e.1 k) }

/-- Repeatedly call `next`, collecting everything the iterator yields until
it returns `None`; the fuel is an upper bound on the number of yields. -/
def drainFuel {T : Type} : Nat → SkipListIterator T → List (Key × T)
  | 0, _ => []
  | n + 1, it =>
    match SkipListIterator.next it with
    | (none, _) => []
    | (some e, it') => e :: drainFuel n it'

/-- Everything the iterator yields, from its current state on. -/
def SkipListIterator.drain {T : Type} (it : SkipListIterator T) : List (Key × T) :=
  drainFuel (it.items.length + 1) it

theorem nextScan_eq_none {T : Type} {o : IteratorOptions} :
    ∀ {s : List (Key × T)} {i : Nat},
      nextScan o s i = none ↔ s.filter (fun e => keptBy o e.1) = [] := by
  intro s
  induction s with
  | nil => simp [nextScan]
  | cons e rest ih =>
    intro i
    rw [nextScan]
    by_cases h : keptBy o e.1
    · simp [h, List.filter_cons]
    · simp only [Bool.not_eq_true] at h
      simp [h, List.filter_cons, ih]

theorem nextScan_eq_some {T : Type} {o : IteratorOptions} :
    ∀ {s : List (Key × T)} {i j : Nat} {e : Key × T},
      nextScan o s i = some (e, j) →
      ∃ s₁ s₂, s = s₁ ++ e :: s₂ ∧ (∀ x ∈ s₁, keptBy o x.1 = false) ∧
        keptBy o e.1 = true ∧ j = i + s₁.length + 1 := by
  intro s
  induction s with
  | nil => intro i j e h; cases h
  | cons f rest ih =>
    intro i j e h
    rw [nextScan] at h
    by_cases hk : keptBy o f.1
    · rw [if_pos hk] at h
      obtain ⟨he, hj⟩ : f = e ∧ i + 1 = j := by
        have := Option.some.inj h
        exact ⟨congrArg Prod.fst this, congrArg Prod.snd this⟩
      subst he; subst hj
      exact ⟨[], rest, by simp, by simp, hk, by simp⟩
    · rw [if_neg hk] at h
      obtain ⟨s₁, s₂, hs, hall, hkept, hj⟩ := ih h
      refine ⟨f :: s₁, s₂, by simp [hs], ?_, hkept, by simp [hj]; omega⟩
      intro x hx
      rw [List.mem_cons] at hx
      rcases hx with hx | hx
      · subst hx; simpa using hk
      · exact hall x hx

theorem drainFuel_eq_filter {T : Type} (o : IteratorOptions) (items : List (Key × T)) :
    ∀ (n i : Nat), items.length - i < n →
      drainFuel n ⟨items, i, o⟩ = (items.drop i).filter (fun e => keptBy o e.1) := by
  intro n
  induction n with
  | zero => intro i h; omega
  | succ n ih =>
    intro i h
    rw [drainFuel]
    by_cases hle : items.length ≤ i
    · rw [List.drop_eq_nil_of_le hle]
      simp [SkipListIterator.next, hle]
    · rcases hscan : nextScan o (items.drop i) i with _ | ⟨e, j⟩
      · rw [show (SkipListIterator.next ⟨items, i, o⟩) =
            (none, ⟨items, items.length, o⟩) from by
          simp [SkipListIterator.next, hle, hscan]]
        rw [nextScan_eq_none.1 hscan]
      · obtain ⟨s₁, s₂, hs, hall, hkept, hj⟩ := nextScan_eq_some hscan
        rw [show (SkipListIterator.next ⟨items, i, o⟩) =
            (some e, ⟨items, j, o⟩) from by
          simp [SkipListIterator.next, hle, hscan]]
        show e :: drainFuel n ⟨items, j, o⟩ = _
        have hdropj : items.drop j = s₂ := by
          have h1 : items.drop j = (items.drop i).drop (s₁.length + 1) := by
            rw [List.drop_drop, hj]; ring_nf
          rw [h1, hs, show s₁ ++ e :: s₂ = (s₁ ++ [e]) ++ s₂ by simp,
            show s₁.length + 1 = (s₁ ++ [e]).length by simp]
          exact List.drop_left _ _
        have hlen1 : s₁.length + 1 ≤ (items.drop i).length := by
          rw [hs]; simp
        have hlt : items.length - j < n := by
          rw [List.length_drop] at hlen1
          omega
        have h0 : List.filter (fun e => keptBy o e.1) s₁ = [] :=
          List.filter_eq_nil_iff.2 (by intro a ha; simp [hall a ha])
        rw [ih j hlt, hdropj, hs, List.filter_append, h0]
        simp [List.filter_cons, hkept]

theorem drain_eq_filter {T : Type} (o : IteratorOptions) (items : List (Key × T)) (i : Nat) :
    SkipListIterator.drain ⟨items, i, o⟩ = (items.drop i).filter (fun e => keptBy o e.1) :=
  drainFuel_eq_filter o items (items.length + 1) i (by omega)

theorem next_fst_eq_head_drain {T : Type} (it : SkipListIterator T) :
    (SkipListIterator.next it).1 = (SkipListIterator.drain it).head? := by
  rcases h : SkipListIterator.next it with ⟨e, it'⟩
  cases e with
  | none => simp [SkipListIterator.drain, drainFuel, h]
  | some e => simp [SkipListIterator.drain, drainFuel, h]

theorem replicate_getD {α : Type} (x d : α) :
    ∀ (n i : Nat), (List.replicate n x).getD i d = if i < n then x else d := by
  intro n
  induction n with
  | zero => intro i; simp [List.getD]
  | succ n ih =>
    intro i
    cases i with
    | zero => simp [List.replicate, List.getD]
    | succ i =>
      rw [List.replicate, List.getD_cons_succ, ih i]
      by_cases h : i < n
      · rw [if_pos h, if_pos (by omega)]
      · rw [if_neg h, if_neg (by omega)]

theorem append_getD {α : Type} (d : α) :
    ∀ (l₁ l₂ : List α) (i : Nat),
      (l₁ ++ l₂).getD i d = if i < l₁.length then l₁.getD i d else l₂.getD (i - l₁.length) d := by
  intro l₁
  induction l₁ with
  | nil => intro l₂ i; simp
  | cons a l₁ ih =>
    intro l₂ i
    cases i with
    | zero => simp [List.getD]
    | succ i =>
      rw [List.cons_append, List.getD_cons_succ, List.getD_cons_succ, ih l₂ i]
      simp only [List.length_cons]
      by_cases h : i < l₁.length
      · rw [if_pos h, if_pos (by omega)]
      · rw [if_neg h, if_neg (by omega)]
        congr 1
        omega

/-- Outcome list of a comparator over a sorted slice: a (possibly empty)
run of `lt`, at most one `eq`, then a run of `gt`. -/
def OrdPattern (os : List Ordering) (a b c : Nat) : Prop :=
  os = List.replicate a .lt ++ List.replicate b .eq ++ List.replicate c .gt ∧ b ≤ 1

theorem OrdPattern.length {os : List Ordering} {a b c : Nat}
    (h : OrdPattern os a b c) : os.length = a + b + c := by
  rw [h.1]; simp; omega

theorem OrdPattern.getD {os : List Ordering} {a b c : Nat}
    (h : OrdPattern os a b c) (i : Nat) (d : Ordering) :
    os.getD i d = if i < a then .lt else if i < a + b then .eq
      else if i < a + b + c then .gt else d := by
  rw [h.1, append_getD, append_getD]
  simp only [List.length_append, List.length_replicate]
  rw [replicate_getD, replicate_getD, replicate_getD]
  split_ifs <;> first | rfl | omega

theorem bsearchGo_pattern {os : List Ordering} {a b c : Nat}
    (hp : OrdPattern os a b c) :
    ∀ (fuel l r : Nat), l ≤ a → a + b ≤ r → r ≤ a + b + c → r - l < fuel →
      bsearchGo os fuel l r = a := by
  intro fuel
  induction fuel with
  | zero => intro l r _ _ _ hf; omega
  | succ fuel ih =>
    intro l r hla hbr hrc hf
    rw [bsearchGo]
    by_cases hlr : l < r
    · rw [if_pos hlr]
      have hmidlt : l + (r - l) / 2 < r := by omega
      have hmidge : l ≤ l + (r - l) / 2 := by omega
      rw [hp.getD]
      by_cases h1 : l + (r - l) / 2 < a
      · rw [if_pos h1]
        exact ih (l + (r - l) / 2 + 1) r (by omega) hbr hrc (by omega)
      · rw [if_neg h1]
        by_cases h2 : l + (r - l) / 2 < a + b
        · rw [if_pos h2]
          show l + (r - l) / 2 = a
          have hb : b ≤ 1 := hp.2
          omega
        · rw [if_neg h2, if_pos (by omega)]
          exact ih l (l + (r - l) / 2) hla (by omega) (by omega) (by omega)
    · rw [if_neg hlr]
      show l = a
      omega

theorem binarySearchIdx_pattern {os : List Ordering} {a b c : Nat}
    (hp : OrdPattern os a b c) : binarySearchIdx os = a := by
  have hl := hp.length
  exact bsearchGo_pattern hp (os.length + 1) 0 os.length (by omega) (by omega)
    (by omega) (by omega)

theorem Ordering_swap_eq_eq {o : Ordering} : o.swap = .eq ↔ o = .eq := by
  cases o <;> decide

theorem Ordering_swap_eq_lt {o : Ordering} : o.swap = .lt ↔ o = .gt := by
  cases o <;> decide

theorem seekCmp_eq_iff {o : IteratorOptions} {x k : Key} :
    seekCmp o x k = .eq ↔ x = k := by
  rw [seekCmp]
  rcases hr : o.reverse
  · rw [if_neg (by simp)]
    exact keyCmp_eq_iff
  · rw [if_pos rfl, Ordering_swap_eq_eq]
    exact keyCmp_eq_iff

theorem seekCmp_swap (o : IteratorOptions) (x y : Key) :
    seekCmp o y x = (seekCmp o x y).swap := by
  rw [seekCmp, seekCmp]
  rcases hr : o.reverse
  · rw [if_neg (by simp), if_neg (by simp)]
    exact keyCmp_swap x y
  · rw [if_pos rfl, if_pos rfl, keyCmp_swap x y]

theorem seekCmp_lt_trans {o : IteratorOptions} {x y z : Key}
    (h1 : seekCmp o x y = .lt) (h2 : seekCmp o y z = .lt) : seekCmp o x z = .lt := by
  rw [seekCmp] at h1 h2 ⊢
  rcases hr : o.reverse
  · rw [hr] at h1 h2
    rw [if_neg (by simp)] at h1 h2 ⊢
    exact keyLt_trans h1 h2
  · rw [hr] at h1 h2
    rw [if_pos rfl] at h1 h2 ⊢
    rw [Ordering_swap_eq_lt] at h1 h2 ⊢
    have hyx : keyLt y x := by rw [keyLt, keyCmp_swap, h1]; rfl
    have hzy : keyLt z y := by rw [keyLt, keyCmp_swap, h2]; rfl
    have hzx := keyLt_trans hzy hyx
    rw [keyLt, keyCmp_swap] at hzx
    exact Ordering_swap_eq_lt.1 hzx

theorem map_eq_replicate_of_all {α β : Type} (f : α → β) (b : β) :
    ∀ (l : List α), (∀ x ∈ l, f x = b) → l.map f = List.replicate l.length b := by
  intro l
  induction l with
  | nil => intro _; rfl
  | cons a l ih =>
    intro h
    rw [List.map_cons, List.length_cons, List.replicate, h a (by simp),
      ih fun x hx => h x (by simp [hx])]

/-- Over a slice sorted strictly by the seek comparator, the comparator
outcomes against a fixed key form an `lt` run, at most one `eq`, then a
`gt` run. -/
theorem sorted_seekCmp_pattern {T : Type} (o : IteratorOptions) (k : Key) :
    ∀ {items : List (Key × T)},
      List.Pairwise (fun x y => seekCmp o x.1 y.1 = .lt) items →
      ∃ a b c, OrdPattern (items.map fun e => seekCmp o e.1 k) a b c := by
  intro items
  induction items with
  | nil => exact fun _ => ⟨0, 0, 0, by simp [OrdPattern]⟩
  | cons e rest ih =>
    intro hs
    obtain ⟨hhead, htail⟩ := List.pairwise_cons.1 hs
    obtain ⟨a, b, c, hp⟩ := ih htail
    rcases he : seekCmp o e.1 k with _ | _ | _
    · exact ⟨a + 1, b, c, by
        rw [List.map_cons, he, hp.1]
        constructor
        · rw [List.replicate_succ]
          simp
        · exact hp.2⟩
    · have hek : e.1 = k := seekCmp_eq_iff.1 he
      have hall : ∀ x ∈ rest, seekCmp o x.1 k = .gt := by
        intro x hx
        have hlt : seekCmp o e.1 x.1 = .lt := hhead x hx
        rw [hek] at hlt
        rw [seekCmp_swap] at hlt
        exact Ordering_swap_eq_lt.1 hlt
      refine ⟨0, 1, rest.length, ?_, by omega⟩
      rw [List.map_cons, he, map_eq_replicate_of_all _ _ rest hall]
      simp [List.replicate]
    · have hke : seekCmp o k e.1 = .lt := by
        rw [seekCmp_swap, he]; rfl
      have hall : ∀ x ∈ rest, seekCmp o x.1 k = .gt := by
        intro x hx
        have h2 := seekCmp_lt_trans hke (hhead x hx)
        rw [seekCmp_swap] at h2
        exact Ordering_swap_eq_lt.1 h2
      refine ⟨0, 0, rest.length + 1, ?_, by omega⟩
      rw [List.map_cons, he, map_eq_replicate_of_all _ _ rest hall]
      simp [List.replicate]

theorem find?_eq_head?_of_all {α : Type} (q : α → Bool) :
    ∀ (l : List α), (∀ x ∈ l, q x = true) → l.find? q = l.head? := by
  intro l
  cases l with
  | nil => intro _; rfl
  | cons a l => intro h; rw [List.find?_cons, h a (by simp)]; rfl

/-- Seeking then reading: over a snapshot sorted by the seek comparator,
`seek k` followed by `next` yields exactly the first entry of the
iterator's full yield sequence whose key does not compare below `k`. -/
theorem seek_next_eq_find {T : Type} (o : IteratorOptions) (items : List (Key × T)) (k : Key)
    (hsort : List.Pairwise (fun x y => seekCmp o x.1 y.1 = .lt) items) :
    (SkipListIterator.next (SkipListIterator.seek ⟨items, 0, o⟩ k)).1
      = List.find? (fun e => !(seekCmp o e.1 k == Ordering.lt))
          (SkipListIterator.drain ⟨items, 0, o⟩) := by
  obtain ⟨a, b, c, hp⟩ := sorted_seekCmp_pattern o k hsort
  have hlen : items.length = a + b + c := by
    have h0 := hp.length
    rwa [List.length_map] at h0
  have hseek : SkipListIterator.seek ⟨items, 0, o⟩ k = ⟨items, a, o⟩ := by
    rw [SkipListIterator.seek]
    congr 1
    exact binarySearchIdx_pattern hp
  rw [hseek, next_fst_eq_head_drain]
  rw [show SkipListIterator.drain ⟨items, a, o⟩
      = (items.drop a).filter (fun e => keptBy o e.1) from drain_eq_filter o items a]
  rw [show SkipListIterator.drain ⟨items, 0, o⟩
      = items.filter (fun e => keptBy o e.1) from by
    rw [drain_eq_filter, List.drop_zero]]
  have htake : ∀ x ∈ items.take a, seekCmp o x.1 k = .lt := by
    intro x hx
    have hmem := List.mem_map_of_mem (fun e => seekCmp o e.1 k) hx
    rw [List.map_take, hp.1, List.append_assoc,
      List.take_left' (List.length_replicate a Ordering.lt)] at hmem
    exact (List.mem_replicate.1 hmem).2
  have hdrop : ∀ x ∈ items.drop a, seekCmp o x.1 k ≠ .lt := by
    intro x hx
    have hmem := List.mem_map_of_mem (fun e => seekCmp o e.1 k) hx
    rw [List.map_drop, hp.1, List.append_assoc,
      List.drop_left' (List.length_replicate a Ordering.lt), List.mem_append] at hmem
    rcases hmem with hm | hm
    · simp only [List.mem_replicate] at hm
      rw [hm.2]
      simp
    · simp only [List.mem_replicate] at hm
      rw [hm.2]
      simp
  conv_rhs => rw [← List.take_append_drop a items]
  rw [List.filter_append, List.find?_append]
  have hnone : List.find? (fun e => !(seekCmp o e.1 k == Ordering.lt))
      ((items.take a).filter (fun e => keptBy o e.1)) = none := by
    rw [List.find?_eq_none]
    intro x hx
    have hxt := (List.mem_filter.1 hx).1
    simp only [htake x hxt]
    decide
  rw [hnone, Option.none_or]
  refine (find?_eq_head?_of_all _ _ ?_).symm
  intro x hx
  have hxd := (List.mem_filter.1 hx).1
  rcases hc : seekCmp o x.1 k with _ | _ | _
  · exact absurd hc (hdrop x hxd)
  · decide
  · decide

/-- Record type tags (src/data/log_record.rs `LogRecordType`). -/
inductive LogRecordType where
  | NORMAL
  | DELETED
  | TXNFINISHED
  deriving DecidableEq

/-- The numeric value of each tag (`rec_type as u8`): NORMAL = 1,
DELETED = 2, TXNFINISHED = 3. -/
def LogRecordType.toTag : LogRecordType → Nat
  | .NORMAL => 1
  | .DELETED => 2
  | .TXNFINISHED => 3

/-- `impl From<u8> for LogRecordType` (src/data/log_record.rs): tags 1, 2
and 3 convert; every other byte hits `panic!("unknown log record type")`,
modelled as `none`. -/
def LogRecordType.fromU8 (v : Nat) : Option LogRecordType :=
  if v = 1 then some .NORMAL
  else if v = 2 then some .DELETED
  else if v = 3 then some .TXNFINISHED
  else none

/-- A log record (src/data/log_record.rs `LogRecord`). -/
structure LogRecord where
  key : List Nat
  value : List Nat
  rec_type : LogRecordType
  deriving DecidableEq

/-- Modelled from the spec: `prost::encode_varint` / the LEB128
length-delimiter encoding used for key and value lengths (the prost crate
is external).  Little-endian 7-bit groups, high bit marking continuation;
the fuel of 10 bytes covers every `u64`. -/
def varintGo : Nat → Nat → List Nat
  | 0, _ => []
  | fuel + 1, n =>
    if n < 0x80 then [n] else (n % 0x80 + 0x80) :: varintGo fuel (n / 0x80)

/-- Encoding of one unsigned varint. -/
def encodeVarint (n : Nat) : List Nat :=
  varintGo 10 n

/-- Modelled from the spec: `prost::encoding::decode_varint` (external
crate), reading at most 10 bytes; `none` for a truncated or overlong
varint, otherwise the value and the remaining bytes. -/
def decVarGo : Nat → Nat → Nat → List Nat → Option (Nat × List Nat)
  | 0, _, _, _ => none
  | _ + 1, _, _, [] => none
  | fuel + 1, shift, acc, b :: rest =>
    if b < 0x80 then some (acc + b * 2 ^ shift, rest)
    else decVarGo fuel (shift + 7) (acc + b % 0x80 * 2 ^ shift) rest

/-- Decoding of one unsigned varint from the front of a buffer. -/
def decodeVarint (l : List Nat) : Option (Nat × List Nat) :=
  decVarGo 10 0 0 l

/-- One step of the bit-reversed CRC-32 feedback: shift right, folding the
IEEE polynomial 0xEDB88320 in when the low bit is set. -/
def crcStep (c : Nat) : Nat :=
  if c % 2 = 1 then (c / 2) ^^^ 0xEDB88320 else c / 2

/-- Fold one byte into the running CRC: xor into the low bits, then eight
feedback steps. -/
def crc32Byte (c b : Nat) : Nat :=
  crcStep (crcStep (crcStep (crcStep (crcStep (crcStep (crcStep (crcStep (c ^^^ b))))))))

/-- Modelled from the spec: the `crc32fast` checksum (external crate) —
CRC-32 with the bit-reversed IEEE polynomial 0xEDB88320, initial value
0xFFFFFFFF and final xor 0xFFFFFFFF, folded over the bytes in order. -/
def crc32 (data : List Nat) : Nat :=
  (data.foldl crc32Byte 0xFFFFFFFF) ^^^ 0xFFFFFFFF

/-- Big-endian serialisation of a 32-bit word (`BufMut::put_u32`). -/
def be32 (n : Nat) : List Nat :=
  [n / 2 ^ 24 % 256, n / 2 ^ 16 % 256, n / 2 ^ 8 % 256, n % 256]

/-- `LogRecord::encode_and_get_crc` (src/data/log_record.rs): type tag,
varint key length, varint value length, raw key, raw value, then the CRC
of everything so far appended big-endian; returns the buffer and the CRC. -/
def LogRecord.encode_and_get_crc (r : LogRecord) : List Nat × Nat :=
  let buf := r.rec_type.toTag ::
    (encodeVarint r.key.length ++ encodeVarint r.value.length ++ r.key ++ r.value)
  (buf ++ be32 (crc32 buf), crc32 buf)

/-- `LogRecord::encode` (src/data/log_record.rs). -/
def LogRecord.encode (r : LogRecord) : List Nat :=
  r.encode_and_get_crc.1

/-- `LogRecord::get_crc` (src/data/log_record.rs). -/
def LogRecord.get_crc (r : LogRecord) : Nat :=
  r.encode_and_get_crc.2

/-- A record location (src/data/log_record.rs `LogRecordPos`):
`file_id: u32`, `offset: u64`, `size: u32` as numbers. -/
structure LogRecordPos where
  file_id : Nat
  offset : Nat
  size : Nat
  deriving DecidableEq

/-- `LogRecordPos::encode` (src/data/log_record.rs): the three fields as
consecutive unsigned varints. -/
def LogRecordPos.encode (p : LogRecordPos) : List Nat :=
  encodeVarint p.file_id ++ encodeVarint p.offset ++ encodeVarint p.size

/-- `decode_log_record_pos` (src/data/log_record.rs): three varints in
order; the first and third are narrowed with an `as u32` cast; a varint
decoding failure panics in the source, modelled as `none`.  Trailing bytes
are ignored, as the source only advances a cursor. -/
def decode_log_record_pos (l : List Nat) : Option LogRecordPos :=
  match decodeVarint l with
  | none => none
  | some (fid, r1) =>
    match decodeVarint r1 with
    | none => none
    | some (off, r2) =>
      match decodeVarint r2 with
      | none => none
      | some (sz, _) => some ⟨fid % 2 ^ 32, off, sz % 2 ^ 32⟩

/-- The mapped bytes of an `MMapIO` (src/fileio/mmap.rs): the whole file
contents visible through the read-only map. -/
abbrev Mmap := List Nat

/-- `MMapIO::read` (src/fileio/mmap.rs): `let end = offset + buf.len() as
u64` is a u64 addition — it wraps modulo 2^64 in release builds (a debug
build already panics at the addition when it overflows).
`Err(ReadDataFileEOF)` when `end` exceeds the mapped length; otherwise
the slice `map_arr[offset..end]` is copied out and its length returned.
That slice panics when `offset > end` — which is how every wrapped
addition that escapes the EOF check ends — and the panic is modelled as
`none`.  For calls whose addition does not overflow, `end` is
`offset + buf.len()` and the original two-way behaviour remains. -/
def Mmap.read (io : Mmap) (bufLen offset : Nat) : Option (Except Errors (Nat × List Nat)) :=
  if (offset + bufLen) % 2 ^ 64 > List.length io then some (.error .ReadDataFileEOF)
  else if offset ≤ (offset + bufLen) % 2 ^ 64 then
    some (.ok (((List.drop offset io).take ((offset + bufLen) % 2 ^ 64 - offset)).length,
      (List.drop offset io).take ((offset + bufLen) % 2 ^ 64 - offset)))
  else none

/-- `MMapIO::write` (src/fileio/mmap.rs): `unimplemented!()` — the call
panics for every input and never produces a `Result`; the panic is
modelled as `none`. -/
def Mmap.write (_io : Mmap) (_buf : List Nat) : Option (Except Errors Nat) :=
  none

/-- `MMapIO::sync` (src/fileio/mmap.rs): `unimplemented!()` — the call
panics for every input and never produces a `Result`; the panic is
modelled as `none`. -/
def Mmap.sync (_io : Mmap) : Option (Except Errors Unit) :=
  none

/-- `MMapIO::size` (src/fileio/mmap.rs): the mapped length. -/
def Mmap.size (io : Mmap) : Nat :=
  List.length io

theorem decVar_encVar : ∀ (fuel : Nat) (n : Nat) (rest : List Nat) (shift acc : Nat),
    0 < fuel → n < 2 ^ (7 * fuel) →
    decVarGo fuel shift acc (varintGo fuel n ++ rest) = some (acc + n * 2 ^ shift, rest) := by
  intro fuel
  induction fuel with
  | zero => intro n rest shift acc h0 _; omega
  | succ fuel ih =>
    intro n rest shift acc _ hn
    rw [varintGo]
    by_cases hsmall : n < 0x80
    · rw [if_pos hsmall, List.singleton_append, decVarGo, if_pos hsmall]
    · rw [if_neg hsmall, List.cons_append, decVarGo]
      rw [if_neg (show ¬ (n % 0x80 + 0x80 < 0x80) by omega)]
      rw [show (n % 0x80 + 0x80) % 0x80 = n % 0x80 by omega]
      have hfuel : 0 < fuel := by
        rcases Nat.eq_zero_or_pos fuel with h | h
        · subst h
          norm_num at hn
          omega
        · exact h
      have hpow : (2 : Nat) ^ (7 * (fuel + 1)) = 0x80 * 2 ^ (7 * fuel) := by
        rw [show 7 * (fuel + 1) = 7 + 7 * fuel by ring, pow_add]
        norm_num
      have hdiv : n / 0x80 < 2 ^ (7 * fuel) := by
        rw [hpow] at hn
        omega
      rw [ih (n / 0x80) rest (shift + 7) (acc + n % 0x80 * 2 ^ shift) hfuel hdiv]
      have harith : acc + n % 0x80 * 2 ^ shift + n / 0x80 * 2 ^ (shift + 7)
          = acc + n * 2 ^ shift := by
        have hmd := Nat.mod_add_div n 0x80
        calc acc + n % 0x80 * 2 ^ shift + n / 0x80 * 2 ^ (shift + 7)
            = acc + (n % 0x80 + 2 ^ 7 * (n / 0x80)) * 2 ^ shift := by rw [pow_add]; ring
          _ = acc + n * 2 ^ shift := by rw [show (2 : Nat) ^ 7 = 0x80 from rfl, hmd]
      rw [harith]

theorem decodeVarint_encodeVarint (n : Nat) (rest : List Nat) (h : n < 2 ^ 64) :
    decodeVarint (encodeVarint n ++ rest) = some (n, rest) := by
  have h70 : n < 2 ^ (7 * 10) := lt_of_lt_of_le h (by norm_num)
  have := decVar_encVar 10 n rest 0 0 (by omega) h70
  simpa using this

/-- The bytes of the test key "name". -/
def nameBytes : List Nat := [110, 97, 109, 101]

/-- The bytes of the test value "bitcask-rs". -/
def bitcaskBytes : List Nat := [98, 105, 116, 99, 97, 115, 107, 45, 114, 115]

set_option maxRecDepth 10000

/-- C1: the encoder emits the type tag byte, the varint key length, the
varint value length, the key bytes and the value bytes, followed by the
big-endian CRC-32 (bit-reversed IEEE polynomial 0xEDB88320, init and
final xor 0xFFFFFFFF) of all preceding bytes; encoding
(key="name", value="bitcask-rs", Normal) yields CRC 1020360578,
(key="name", value="", Normal) yields 3756865478, and
(key="name", value="bitcask-rs", Tombstone) yields 1867197446. -/
theorem log_record_encode_layout_and_crc :
    (∀ r : LogRecord,
        LogRecord.encode r
          = r.rec_type.toTag ::
              (encodeVarint r.key.length ++ (encodeVarint r.value.length ++ (r.key ++ (r.value ++
                be32 (LogRecord.get_crc r))))) ∧
        LogRecord.get_crc r
          = crc32 (r.rec_type.toTag ::
              (encodeVarint r.key.length ++ (encodeVarint r.value.length ++ (r.key ++ r.value)))))
    ∧ LogRecord.get_crc ⟨nameBytes, bitcaskBytes, .NORMAL⟩ = 1020360578
    ∧ LogRecord.get_crc ⟨nameBytes, [], .NORMAL⟩ = 3756865478
    ∧ LogRecord.get_crc ⟨nameBytes, bitcaskBytes, .DELETED⟩ = 1867197446 := by
  refine ⟨fun r => ⟨?_, ?_⟩, by decide, by decide, by decide⟩
  · simp [LogRecord.encode, LogRecord.get_crc, LogRecord.encode_and_get_crc,
      List.append_assoc]
  · simp [LogRecord.get_crc, LogRecord.encode_and_get_crc, List.append_assoc]

/-- C4 (evaluation at the failing inputs): converting a tag byte outside
{1, 2, 3} to a record type panics in the source (modelled as `none`)
instead of returning a CorruptRecord error; exactly the tags 1, 2 and 3
convert. -/
theorem log_record_type_from_u8_panics_on_unknown :
    LogRecordType.fromU8 0 = none
    ∧ LogRecordType.fromU8 4 = none
    ∧ LogRecordType.fromU8 255 = none
    ∧ LogRecordType.fromU8 1 = some .NORMAL
    ∧ LogRecordType.fromU8 2 = some .DELETED
    ∧ LogRecordType.fromU8 3 = some .TXNFINISHED
    ∧ (∀ v, LogRecordType.fromU8 v = none ↔ (v ≠ 1 ∧ v ≠ 2 ∧ v ≠ 3)) := by
  refine ⟨by decide, by decide, by decide, by decide, by decide, by decide, ?_⟩
  intro v
  rw [LogRecordType.fromU8]
  split_ifs with h1 h2 h3 <;> simp_all

/-- C5 counterexample: at offset 2^64 - 1 with a 2-byte buffer over a
3-byte map, the u64 `offset + buf.len()` wraps to 1, escapes the EOF
check, and the slice `map[offset..1]` panics (`none`) — the call neither
returns ReadDataFileEOF nor any Result, though offset + buf.len() exceeds
the mapped size, refuting the unconditional claim. -/
theorem mmap_read_overflow_panics :
    Mmap.read [10, 20, 30] 2 (2 ^ 64 - 1) = none
    ∧ Mmap.read [10, 20, 30] 2 (2 ^ 64 - 1) ≠ some (.error .ReadDataFileEOF)
    ∧ Mmap.size [10, 20, 30] < 2 ^ 64 - 1 + 2 := by
  have h0 : Mmap.read [10, 20, 30] 2 (2 ^ 64 - 1) = none := rfl
  refine ⟨h0, ?_, ?_⟩
  · rw [h0]
    exact fun h => Option.noConfusion h
  · show (3 : Nat) < 2 ^ 64 - 1 + 2
    norm_num

/-- C5 (amended): for every call whose u64 index arithmetic does not
overflow (offset + buf.len() < 2^64), the memory-mapped read fails with
ReadDataFileEOF exactly when the requested range overruns the mapped
size, no other error and no panic is possible, and otherwise it returns
the full requested length together with precisely the file bytes at
positions [offset, offset + len): never a partial read.  (A call whose
addition overflows panics instead, see the counterexample.) -/
theorem mmap_read_spec (io : Mmap) (bufLen offset : Nat)
    (hov : offset + bufLen < 2 ^ 64) :
    (Mmap.read io bufLen offset = some (.error .ReadDataFileEOF)
        ↔ Mmap.size io < offset + bufLen)
    ∧ (∀ e, Mmap.read io bufLen offset = some (.error e) → e = .ReadDataFileEOF)
    ∧ Mmap.read io bufLen offset ≠ none
    ∧ (offset + bufLen ≤ Mmap.size io →
        Mmap.read io bufLen offset = some (.ok (bufLen, (List.drop offset io).take bufLen))
        ∧ ((List.drop offset io).take bufLen).length = bufLen
        ∧ ∀ i, i < bufLen → ((List.drop offset io).take bufLen)[i]? = io[offset + i]?) := by
  have hmod : (offset + bufLen) % 2 ^ 64 = offset + bufLen := Nat.mod_eq_of_lt hov
  refine ⟨?_, ?_, ?_, ?_⟩
  · rw [Mmap.read, hmod]
    by_cases h : offset + bufLen > List.length io
    · rw [if_pos h]
      simp [Mmap.size]
      omega
    · rw [if_neg h, if_pos (by omega)]
      simp [Mmap.size]
      omega
  · intro e he
    rw [Mmap.read, hmod] at he
    by_cases h : offset + bufLen > List.length io
    · rw [if_pos h] at he
      simp only [Option.some.injEq, Except.error.injEq] at he
      exact he.symm
    · rw [if_neg h, if_pos (by omega)] at he
      simp at he
  · rw [Mmap.read, hmod]
    by_cases h : offset + bufLen > List.length io
    · rw [if_pos h]
      simp
    · rw [if_neg h, if_pos (by omega)]
      simp
  · intro hle
    have hle' : offset + bufLen ≤ List.length io := hle
    have hlen : ((List.drop offset io).take bufLen).length = bufLen := by
      rw [List.length_take, List.length_drop]
      exact Nat.min_eq_left (by omega)
    have hcnt : offset + bufLen - offset = bufLen := by omega
    refine ⟨?_, hlen, ?_⟩
    · rw [Mmap.read, hmod, if_neg (by omega), if_pos (by omega), hcnt, hlen]
    · intro i hi
      rw [List.getElem?_take, if_pos hi, List.getElem?_drop]

/-- C5 witness: reading 2 bytes at offset 1 of a 3-byte map succeeds with
exactly those bytes; reading 2 bytes at offset 2 fails with
ReadDataFileEOF. -/
theorem mmap_read_spec_witness :
    Mmap.read [10, 20, 30] 2 1 = some (.ok (2, [20, 30]))
    ∧ Mmap.read [10, 20, 30] 2 2 = some (.error .ReadDataFileEOF) := by
  constructor
  · have h := (mmap_read_spec [10, 20, 30] 2 1 (by norm_num)).2.2.2 (by decide)
    rw [h.1]
    exact rfl
  · exact (mmap_read_spec [10, 20, 30] 2 2 (by norm_num)).1.2 (by decide)

/-- C10: the memory-mapped back-end's write and sync are `unimplemented!()`
— every call panics (modelled as `none`) and no call produces a `Result`
value, `Ok` or `Err`. -/
theorem mmap_write_sync_always_panic :
    ∀ (io : Mmap) (buf : List Nat),
      Mmap.write io buf = none ∧ Mmap.sync io = none
      ∧ (∀ r, Mmap.write io buf ≠ some r) ∧ (∀ r, Mmap.sync io ≠ some r) :=
  fun _ _ =>
    ⟨rfl, rfl, fun _ h => Option.noConfusion h, fun _ h => Option.noConfusion h⟩

/-- C8: the record-location codec round-trips — encoding
(file_id, offset, size) as three unsigned varints and decoding yields the
same location, for every location within the u32/u64 field ranges. -/
theorem log_record_pos_encode_decode_roundtrip (p : LogRecordPos)
    (h1 : p.file_id < 2 ^ 32) (h2 : p.offset < 2 ^ 64) (h3 : p.size < 2 ^ 32) :
    decode_log_record_pos (LogRecordPos.encode p) = some p := by
  obtain ⟨fid, off, sz⟩ := p
  have h1' : fid < 2 ^ 32 := h1
  have h2' : off < 2 ^ 64 := h2
  have h3' : sz < 2 ^ 32 := h3
  have hf := decodeVarint_encodeVarint fid (encodeVarint off ++ encodeVarint sz)
    (by have : (2 : Nat) ^ 32 ≤ 2 ^ 64 := by norm_num
        omega)
  have ho := decodeVarint_encodeVarint off (encodeVarint sz) h2'
  have hs0 := decodeVarint_encodeVarint sz [] (by
    have : (2 : Nat) ^ 32 ≤ 2 ^ 64 := by norm_num
    omega)
  rw [List.append_nil] at hs0
  simp only [LogRecordPos.encode, List.append_assoc, decode_log_record_pos, hf, ho, hs0]
  rw [Nat.mod_eq_of_lt h1', Nat.mod_eq_of_lt h3']

/-- C8 witness: the round-trip at the concrete location
(file_id 1123, offset 1232, size 11). -/
theorem log_record_pos_roundtrip_witness :
    decode_log_record_pos (LogRecordPos.encode ⟨1123, 1232, 11⟩) = some ⟨1123, 1232, 11⟩ :=
  log_record_pos_encode_decode_roundtrip ⟨1123, 1232, 11⟩ (by norm_num) (by norm_num)
    (by norm_num)

/-- The location used throughout the source's index tests. -/
def exPos : LogRecordPos := ⟨1123, 1232, 11⟩

/-- A second location, used as an overwriting value in the tests. -/
def exPos2 : LogRecordPos := ⟨93, 22, 11⟩

/-- The bytes of the test key "aacd". -/
def aacd : Key := [97, 97, 99, 100]

/-- The bytes of the test key "acdd". -/
def acdd : Key := [97, 99, 100, 100]

/-- The bytes of the test key "bbae". -/
def bbae : Key := [98, 98, 97, 101]

/-- The bytes of the test key "ddee". -/
def ddee : Key := [100, 100, 101, 101]

/-- The index state of the source's iterator test: the four test keys,
each mapped to the test location. -/
def exMap : SkipMap LogRecordPos := [(aacd, exPos), (acdd, exPos), (bbae, exPos), (ddee, exPos)]

/-- C2: the index behaves as a finite map — put installs its location and
returns the previously installed one, get returns what the most recent
surviving put installed (settled in general through the operation-history
lookup), delete removes the key and returns the displaced location, and
under sequential puts to one key the returned prev equals the location the
immediately preceding put installed. -/
theorem skiplist_index_map_semantics {T : Type} (m : SkipMap T) (k k' : Key) (v v' : T)
    (ops : List (MutOp T)) (hwf : SkipMap.wf m) :
    (SkipList.put m k v).1 = SkipMap.get m k
    ∧ SkipMap.get (SkipList.put m k v).2 k = some v
    ∧ (k' ≠ k → SkipMap.get (SkipList.put m k v).2 k' = SkipMap.get m k')
    ∧ (SkipList.delete m k).1 = SkipMap.get m k
    ∧ SkipMap.get (SkipList.delete m k).2 k = none
    ∧ (k' ≠ k → SkipMap.get (SkipList.delete m k).2 k' = SkipMap.get m k')
    ∧ SkipList.get (applyMutOps m ops) k = (histLookup ops k).getD (SkipMap.get m k)
    ∧ (SkipList.put (SkipList.put m k v).2 k v').1 = some v :=
  ⟨rfl, SkipMap.get_insert_self m k v, fun h => SkipMap.get_insert_ne m v h,
    SkipMap.removeGo_fst m k, SkipMap.get_remove_self k hwf,
    fun h => SkipMap.get_remove_ne m h, get_applyMutOps ops m k hwf,
    SkipMap.get_insert_self m k v⟩

/-- C2 witness: on the test map, a second put of key "bbae" returns the
location the first put installed, and after a delete the key reads as
absent. -/
theorem skiplist_index_map_semantics_witness :
    (SkipList.put (SkipList.put exMap bbae exPos2).2 bbae exPos).1 = some exPos2
    ∧ SkipMap.get (SkipList.delete exMap bbae).2 bbae = none := by
  have h := skiplist_index_map_semantics exMap bbae aacd exPos2 exPos [] (by decide)
  exact ⟨h.2.2.2.2.2.2.2, h.2.2.2.2.1⟩

/-- C7: list_keys returns Ok of the keys, each present key exactly once,
in ascending lexicographic order; it never returns an error. -/
theorem skiplist_list_keys_sorted {T : Type} (m : SkipMap T) (hwf : SkipMap.wf m) :
    SkipList.list_keys m = Except.ok (m.map Prod.fst)
    ∧ List.Pairwise keyLt (m.map Prod.fst)
    ∧ (∀ k, k ∈ m.map Prod.fst ↔ ∃ v, SkipMap.get m k = some v) := by
  refine ⟨rfl, ?_, ?_⟩
  · rw [List.pairwise_map]
    exact hwf
  · intro k
    constructor
    · intro hk
      rw [List.mem_map] at hk
      obtain ⟨e, he, hek⟩ := hk
      refine ⟨e.2, (SkipMap.get_eq_some_iff_mem hwf).2 ?_⟩
      rw [← hek]
      simpa using he
    · rintro ⟨v, hv⟩
      have hm := (SkipMap.get_eq_some_iff_mem hwf).1 hv
      exact List.mem_map.2 ⟨(k, v), hm, rfl⟩

/-- C7 witness: on the test map, list_keys returns Ok of the four keys in
ascending order. -/
theorem skiplist_list_keys_witness :
    SkipList.list_keys exMap = Except.ok [aacd, acdd, bbae, ddee]
    ∧ List.Pairwise keyLt [aacd, acdd, bbae, ddee] := by
  have h := skiplist_list_keys_sorted exMap (by decide)
  exact ⟨h.1, by decide⟩

theorem keptBy_eq_startsWith (o : IteratorOptions) (k : Key) :
    keptBy o k = startsWith k o.pfx := by
  rw [keptBy]
  cases hp : o.pfx
  · cases k <;> simp [startsWith]
  · simp

theorem skiplist_iterator_items {T : Type} (m : SkipMap T) (o : IteratorOptions) :
    (SkipList.iterator m o).items = if o.reverse then m.reverse else m := rfl

/-- C3: the iterator yields exactly the entries present at construction
whose key starts with the configured filter, each exactly once, in
ascending lexicographic key order — descending when reverse is set — and
nothing else. -/
theorem skiplist_iterator_drain_spec {T : Type} (m : SkipMap T) (o : IteratorOptions)
    (hwf : SkipMap.wf m) :
    SkipListIterator.drain (SkipList.iterator m o)
      = (if o.reverse then (m.filter fun e => keptBy o e.1).reverse
         else m.filter fun e => keptBy o e.1)
    ∧ (∀ e, e ∈ SkipListIterator.drain (SkipList.iterator m o) ↔
        (SkipMap.get m e.1 = some e.2 ∧ startsWith e.1 o.pfx = true))
    ∧ (o.reverse = false →
        List.Pairwise (fun a b => keyLt a.1 b.1) (SkipListIterator.drain (SkipList.iterator m o)))
    ∧ (o.reverse = true →
        List.Pairwise (fun a b => keyLt b.1 a.1) (SkipListIterator.drain (SkipList.iterator m o))) := by
  have hdrain : SkipListIterator.drain (SkipList.iterator m o)
      = (if o.reverse then m.reverse else m).filter (fun e => keptBy o e.1) := by
    rw [show SkipList.iterator m o
        = (⟨if o.reverse then m.reverse else m, 0, o⟩ : SkipListIterator T) from rfl]
    rw [drain_eq_filter o _ 0, List.drop_zero]
  have hmem : ∀ e : Key × T, e ∈ (if o.reverse then m.reverse else m) ↔ e ∈ m := by
    intro e
    split <;> simp
  refine ⟨?_, ?_, ?_, ?_⟩
  · rw [hdrain]
    rcases hr : o.reverse
    · simp
    · simp [List.filter_reverse]
  · intro e
    rw [hdrain, List.mem_filter]
    constructor
    · intro h
      obtain ⟨h1, h2⟩ := h
      rw [hmem] at h1
      refine ⟨(SkipMap.get_eq_some_iff_mem hwf).2 (by simpa using h1), ?_⟩
      rwa [keptBy_eq_startsWith] at h2
    · rintro ⟨h1, h2⟩
      refine ⟨(hmem e).2 ?_, ?_⟩
      · have := (SkipMap.get_eq_some_iff_mem hwf).1 h1
        simpa using this
      · rwa [keptBy_eq_startsWith]
  · intro hr
    rw [hdrain, hr]
    simp only [Bool.false_eq_true, if_false]
    exact List.Pairwise.sublist (List.filter_sublist m) hwf
  · intro hr
    rw [hdrain, hr]
    simp only [if_true]
    rw [List.filter_reverse, List.pairwise_reverse]
    exact List.Pairwise.sublist (List.filter_sublist m) hwf

/-- C3 witness: on the four test keys with filter "bb", the iterator
yields exactly the entry for "bbae". -/
theorem skiplist_iterator_drain_witness :
    SkipListIterator.drain (SkipList.iterator exMap ⟨[98, 98], false⟩) = [(bbae, exPos)] := by
  have h := skiplist_iterator_drain_spec exMap ⟨[98, 98], false⟩ (by decide)
  rw [h.1]
  decide

theorem seekCmp_of_not_reverse {o : IteratorOptions} (hr : o.reverse = false) (x k : Key) :
    seekCmp o x k = keyCmp x k := by
  rw [seekCmp, hr]
  simp

theorem seekCmp_of_reverse {o : IteratorOptions} (hr : o.reverse = true) (x k : Key) :
    seekCmp o x k = (keyCmp x k).swap := by
  rw [seekCmp, hr]
  simp

theorem not_beq_lt_eq_decide : ∀ (x : Ordering),
    (!(x == Ordering.lt)) = decide (¬ x = Ordering.lt) := by
  intro x
  cases x <;> rfl

theorem seek_pred_of_not_reverse {T : Type} {o : IteratorOptions} (hr : o.reverse = false)
    (k : Key) :
    (fun (e : Key × T) => !(seekCmp o e.1 k == Ordering.lt))
      = (fun e => decide (¬ keyLt e.1 k)) := by
  funext e
  simp only [keyLt]
  rw [seekCmp_of_not_reverse hr]
  exact not_beq_lt_eq_decide (keyCmp e.1 k)

theorem seek_pred_of_reverse {T : Type} {o : IteratorOptions} (hr : o.reverse = true)
    (k : Key) :
    (fun (e : Key × T) => !(seekCmp o e.1 k == Ordering.lt))
      = (fun e => decide (¬ keyLt k e.1)) := by
  funext e
  simp only [keyLt]
  rw [seekCmp_of_reverse hr, not_beq_lt_eq_decide ((keyCmp e.1 k).swap),
    decide_eq_decide, keyCmp_swap e.1 k]

theorem iterator_items_sorted_seekCmp {T : Type} (m : SkipMap T) (o : IteratorOptions)
    (hwf : SkipMap.wf m) :
    List.Pairwise (fun x y => seekCmp o x.1 y.1 = .lt) ((SkipList.iterator m o).items) := by
  rw [skiplist_iterator_items]
  rcases hr : o.reverse
  · simp only [Bool.false_eq_true, if_false]
    refine List.Pairwise.imp ?_ hwf
    intro a b hab
    rw [seekCmp_of_not_reverse hr]
    exact hab
  · simp only [if_true]
    rw [List.pairwise_reverse]
    refine List.Pairwise.imp ?_ hwf
    intro a b hab
    rw [keyLt] at hab
    rw [seekCmp_of_reverse hr, keyCmp_swap a.1 b.1, hab]
    rfl

/-- C6: after seek(k), the next call to next() yields the first
prefix-matching entry of the iterator's sequence whose key is at least k
in ascending mode — at most k in reverse mode — or None when no such
entry exists; and rewind resets the cursor so iteration restarts from the
first entry of the sequence. -/
theorem skiplist_iterator_seek_rewind {T : Type} (m : SkipMap T) (o : IteratorOptions)
    (k : Key) (j : Nat) (hwf : SkipMap.wf m) :
    (o.reverse = false →
      (SkipListIterator.next (SkipListIterator.seek (SkipList.iterator m o) k)).1
        = List.find? (fun e => decide (¬ keyLt e.1 k))
            (SkipListIterator.drain (SkipList.iterator m o)))
    ∧ (o.reverse = true →
      (SkipListIterator.next (SkipListIterator.seek (SkipList.iterator m o) k)).1
        = List.find? (fun e => decide (¬ keyLt k e.1))
            (SkipListIterator.drain (SkipList.iterator m o)))
    ∧ SkipListIterator.drain
        (SkipListIterator.rewind ⟨(SkipList.iterator m o).items, j, o⟩)
        = SkipListIterator.drain (SkipList.iterator m o) := by
  have hsorted := iterator_items_sorted_seekCmp m o hwf
  have h := seek_next_eq_find o ((SkipList.iterator m o).items) k hsorted
  have hiter : (⟨(SkipList.iterator m o).items, 0, o⟩ : SkipListIterator T)
      = SkipList.iterator m o := rfl
  rw [hiter] at h
  refine ⟨?_, ?_, ?_⟩
  · intro hr
    rw [h, seek_pred_of_not_reverse hr]
  · intro hr
    rw [h, seek_pred_of_reverse hr]
  · rfl

/-- C6 witness: on the four test keys in ascending mode with no filter,
seek("b") followed by next yields the entry for "bbae", the first key at
or above "b"; and rewinding a part-way iterator restores the full yield
sequence. -/
theorem skiplist_iterator_seek_rewind_witness :
    (SkipListIterator.next (SkipListIterator.seek
        (SkipList.iterator exMap ⟨[], false⟩) [98])).1 = some (bbae, exPos)
    ∧ SkipListIterator.drain
        (SkipListIterator.rewind ⟨(SkipList.iterator exMap ⟨[], false⟩).items, 2, ⟨[], false⟩⟩)
        = SkipListIterator.drain (SkipList.iterator exMap ⟨[], false⟩) := by
  have h := skiplist_iterator_seek_rewind exMap ⟨[], false⟩ [98] 2 (by decide)
  constructor
  · rw [h.1 rfl]
    decide
  · exact h.2.2

/-- One interleaved step against the engine's index and one live iterator:
a mutating index operation or an advance of the iterator. -/
inductive EngineOp (T : Type) where
  | put (k : Key) (v : T)
  | del (k : Key)
  | iterNext

/-- Whether a step advances the iterator. -/
def EngineOp.isNext {T : Type} : EngineOp T → Bool
  | .iterNext => true
  | _ => false

/-- Shared state: the index map and one constructed iterator. -/
structure IterWorld (T : Type) where
  map : SkipMap T
  it : SkipListIterator T

/-- Execute one step: puts and deletes go to the map (as in
`SkipList::put`/`delete`), an iterator advance goes to the iterator's own
snapshot (as in `SkipListIterator::next`); the yielded entry, if any, is
returned. -/
def stepWorld {T : Type} (w : IterWorld T) : EngineOp T → IterWorld T × Option (Key × T)
  | .put k v => ({ w with map := (SkipList.put w.map k v).2 }, none)
  | .del k => ({ w with map := (SkipList.delete w.map k).2 }, none)
  | .iterNext => ({ w with it := (SkipListIterator.next w.it).2 }, (SkipListIterator.next w.it).1)

/-- Execute a step sequence, collecting the entries the iterator yields
(one output per iterator advance, in order). -/
def runWorld {T : Type} : IterWorld T → List (EngineOp T) → IterWorld T × List (Option (Key × T))
  | w, [] => (w, [])
  | w, op :: ops =>
    ((runWorld (stepWorld w op).1 ops).1,
      if op.isNext then (stepWorld w op).2 :: (runWorld (stepWorld w op).1 ops).2
      else (runWorld (stepWorld w op).1 ops).2)

theorem stepWorld_put_it {T : Type} (w : IterWorld T) (k : Key) (v : T) :
    (stepWorld w (.put k v)).1.it = w.it := rfl

theorem runWorld_frame {T : Type} :
    ∀ (ops : List (EngineOp T)) (w₁ w₂ : IterWorld T), w₁.it = w₂.it →
      (runWorld w₁ ops).2 = (runWorld w₂ (ops.filter EngineOp.isNext)).2
      ∧ (runWorld w₁ ops).1.it = (runWorld w₂ (ops.filter EngineOp.isNext)).1.it := by
  intro ops
  induction ops with
  | nil =>
    intro w₁ w₂ h
    exact ⟨rfl, h⟩
  | cons op ops ih =>
    intro w₁ w₂ h
    cases op with
    | put k v =>
      have hstep : (stepWorld w₁ (.put k v)).1.it = w₂.it := h
      have := ih (stepWorld w₁ (.put k v)).1 w₂ hstep
      simpa [runWorld, List.filter_cons, EngineOp.isNext] using this
    | del k =>
      have hstep : (stepWorld w₁ (.del k)).1.it = w₂.it := h
      have := ih (stepWorld w₁ (.del k)).1 w₂ hstep
      simpa [runWorld, List.filter_cons, EngineOp.isNext] using this
    | iterNext =>
      have hnext : SkipListIterator.next w₁.it = SkipListIterator.next w₂.it := by rw [h]
      have hstep : (stepWorld w₁ (.iterNext : EngineOp T)).1.it
          = (stepWorld w₂ (.iterNext : EngineOp T)).1.it := by
        simp [stepWorld, hnext]
      have hout : (stepWorld w₁ (.iterNext : EngineOp T)).2
          = (stepWorld w₂ (.iterNext : EngineOp T)).2 := by
        simp [stepWorld, hnext]
      have := ih (stepWorld w₁ (.iterNext : EngineOp T)).1
        (stepWorld w₂ (.iterNext : EngineOp T)).1 hstep
      constructor
      · simp only [runWorld, List.filter_cons, EngineOp.isNext, if_pos]
        rw [hout, this.1]
      · simp only [runWorld, List.filter_cons, EngineOp.isNext, if_pos]
        exact this.2

theorem next_items {T : Type} (it : SkipListIterator T) :
    (SkipListIterator.next it).2.items = it.items := by
  rw [SkipListIterator.next]
  by_cases h : it.items.length ≤ it.currIndex
  · rw [if_pos h]
  · rw [if_neg h]
    rcases hscan : nextScan it.options (it.items.drop it.currIndex) it.currIndex with _ | ⟨e, j⟩
    · rfl
    · rfl

theorem runWorld_it_items {T : Type} :
    ∀ (ops : List (EngineOp T)) (w : IterWorld T),
      (runWorld w ops).1.it.items = w.it.items := by
  intro ops
  induction ops with
  | nil => intro w; rfl
  | cons op ops ih =>
    intro w
    have h := ih (stepWorld w op).1
    rw [runWorld]
    cases op with
    | put k v => exact h
    | del k => exact h
    | iterNext =>
      rw [h]
      exact next_items w.it

/-- C9: the iterator is a snapshot — however many puts and deletes are
interleaved after construction, the entries the iterator yields are
exactly those it would have yielded with no mutations at all, and its
snapshot vector never changes. -/
theorem skiplist_iterator_snapshot {T : Type} (m : SkipMap T) (o : IteratorOptions)
    (ops : List (EngineOp T)) :
    (runWorld ⟨m, SkipList.iterator m o⟩ ops).2
      = (runWorld ⟨m, SkipList.iterator m o⟩ (ops.filter EngineOp.isNext)).2
    ∧ (runWorld ⟨m, SkipList.iterator m o⟩ ops).1.it.items = (SkipList.iterator m o).items :=
  ⟨(runWorld_frame ops _ _ rfl).1, runWorld_it_items ops _⟩

end Bitcask
